import Mathlib

/-!
Shallow embedding of `tools/directivesgen/main.go` from the coraza.io
repository.

Text is modelled as `List Char`.  The Go standard-library helpers used by
the tool are embedded as executable functions on character lists:
`strings.HasPrefix` as `hasPref`, the blank-line test
`len(strings.TrimSpace(s)) == 0` as `isBlank`, `strings.Cut` as `cut`,
`strings.Replace(s, old, new, -1)` as `replaceAllF` (with fuel equal to
the length of the scanned text, which makes the definition structural and
hence computable by kernel reduction), and the line splitting of
`bufio.Scanner` with `bufio.ScanLines` as `splitLines` (newline separated
tokens, one trailing carriage return dropped per line, no empty final
token when the input ends with a newline).

Fatal exits (`log.Fatalf`) are modelled with `Except`: `parseDirective`
returns `Except (List Char) Directive` where the error value is the
logged message.  The generation timestamp `time.Now().Format(...)` is an
explicit parameter `now`.  The `main` traversal over the parsed syntax
tree is modelled by `runDecls` over a list of function declarations, a
declaration being a name plus an optional attached doc-comment text
(`none` models a nil `fn.Doc`); the file system is an association list
from file names (relative to the fixed destination directory) to
contents, and the template rendering plus HTML unescaping step is an
arbitrary function parameter `render`, since the embedded template file
is external to the sources under verification.
-/

namespace Directivesgen

/-- Model of `strings.HasPrefix(s, p)`: `hasPref p s` is `true` exactly
when the character list `p` is a prefix of `s`. -/
def hasPref : List Char → List Char → Bool
  | [], _ => true
  | _ :: _, [] => false
  | p :: ps, c :: cs => if p = c then hasPref ps cs else false

/-- Model of the blank-line test `len(strings.TrimSpace(s)) == 0`: every
character of the line is whitespace.  `Char.isWhitespace` covers the
ASCII whitespace characters that occur in Go doc comments. -/
def isBlank (s : List Char) : Bool := s.all Char.isWhitespace

/-- Model of `strings.Cut(s, sep)`: split `s` around the first occurrence
of `sep`, returning `none` when `sep` does not occur (the `ok = false`
case in Go). -/
def cut (sep : List Char) (s : List Char) : Option (List Char × List Char) :=
  match s with
  | [] => if hasPref sep [] then some ([], []) else none
  | c :: rest =>
    if hasPref sep (c :: rest) then some ([], List.drop sep.length (c :: rest))
    else
      match cut sep rest with
      | some p => some (c :: p.1, p.2)
      | none => none

/-- Model of the `dropCR` step of `bufio.ScanLines`: remove one trailing
carriage return from a scanned line. -/
def dropCR (s : List Char) : List Char :=
  if s.getLast? = some '\r' then s.dropLast else s

/-- Accumulator-based worker for `splitLines`; the second argument holds
the characters of the current line in reverse order. -/
def splitLinesAux : List Char → List Char → List (List Char)
  | [], acc => if acc.isEmpty then [] else [dropCR acc.reverse]
  | c :: rest, acc =>
    if c = '\n' then dropCR acc.reverse :: splitLinesAux rest []
    else splitLinesAux rest (c :: acc)

/-- Model of the sequence of tokens produced by a `bufio.Scanner` with
the `bufio.ScanLines` split function: lines separated by newline
characters, one trailing carriage return removed per line, a final
newline producing no extra empty token, and a non-terminated final line
returned as a token. -/
def splitLines (s : List Char) : List (List Char) := splitLinesAux s []

/-- The fixed declaration-name and echo-line marker `"directive"`. -/
def kwDirective : List Char := "directive".toList

/-- The body-mode marker prefix `"---"`. -/
def dashMark : List Char := "---".toList

/-- The key/value separator `": "` used by `strings.Cut` in the field
loop. -/
def sepColonSpace : List Char := ": ".toList

/-- The recognized field key `"Description"`. -/
def keyDescription : List Char := "Description".toList

/-- The recognized field key for the directive grammar line (the Go
struct field of the same spelling). -/
def keySyn : List Char := "Syntax".toList

/-- The recognized field key `"Default"`. -/
def keyDefault : List Char := "Default".toList

/-- The marker `"Note:"` looked up by `decorateNote`. -/
def noteTag : List Char := "Note:".toList

/-- The decorated replacement `"**Note:**"` produced by `decorateNote`. -/
def noteBold : List Char := "**Note:**".toList

/-- The restored line terminator appended after each body line. -/
def newlineCh : List Char := ['\n']

/-- The output file-name extension `".md"`. -/
def mdExt : List Char := ".md".toList

/-- Model of the Go struct `Directive`.  The field `synt` embeds the Go
field spelled like the key `keySyn`; all other fields keep their Go
names. -/
structure Directive where
  Name : List Char
  Description : List Char
  synt : List Char
  Default : List Char
  Date : List Char
  LastModification : List Char
  Content : List Char
  deriving DecidableEq

/-- Model of the `fieldAppenders` map: the mutation closure attached to a
recognized key, `none` for an unknown key. -/
def fieldAppend (key : List Char) : Option (Directive → List Char → Directive) :=
  if key = keyDescription then
    some (fun d value => { d with Description := d.Description ++ value })
  else if key = keySyn then
    some (fun d value => { d with synt := d.synt ++ value })
  else if key = keyDefault then
    some (fun d value => { d with Default := d.Default ++ value })
  else none

/-- A key is recognized when the `fieldAppenders` map contains it. -/
def recognizedKey (key : List Char) : Bool := (fieldAppend key).isSome

/-- Model of the message logged by `log.Fatalf("unknown field %q", key)`
for keys without characters needing Go quoting. -/
def unknownFieldMsg (key : List Char) : List Char :=
  "unknown field ".toList ++ ('"' :: key ++ ['"'])

/-- Model of the Go runtime panic raised by calling a nil map entry;
this branch is unreachable because `previousKey` is always empty or a
recognized key. -/
def panicNilAppender : List Char := "panic: call of nil field appender".toList

/-- Fuelled model of `strings.Replace(s, pat, rep, -1)` for a non-empty
pattern (the only use is the non-empty `noteTag`): replace the leftmost
non-overlapping occurrences of `pat` in `s` by `rep`.  The fuel is spent
one unit per produced position and is instantiated with the length of
`s`, which always suffices. -/
def replaceAllF (pat rep : List Char) : Nat → List Char → List Char
  | 0, s => s
  | _ + 1, [] => []
  | fuel + 1, c :: rest =>
    if (!pat.isEmpty) && hasPref pat (c :: rest) then
      rep ++ replaceAllF pat rep fuel (List.drop pat.length (c :: rest))
    else
      c :: replaceAllF pat rep fuel rest

/-- Model of `decorateNote`: replace every occurrence of `"Note:"` by
`"**Note:**"`. -/
def decorateNote (s : List Char) : List Char :=
  replaceAllF noteTag noteBold s.length s

/-- Fuelled splitting of `s` at the leftmost non-overlapping occurrences
of `pat`; companion of `replaceAllF` with the same recursion pattern. -/
def splitOnSubF (pat : List Char) : Nat → List Char → List (List Char)
  | 0, s => [s]
  | _ + 1, [] => [[]]
  | fuel + 1, c :: rest =>
    if (!pat.isEmpty) && hasPref pat (c :: rest) then
      [] :: splitOnSubF pat fuel (List.drop pat.length (c :: rest))
    else
      match splitOnSubF pat fuel rest with
      | [] => [[c]]
      | t :: ts => (c :: t) :: ts

/-- Join a list of pieces with the separator `sep` between consecutive
pieces. -/
def joinWith (sep : List Char) : List (List Char) → List Char
  | [] => []
  | [x] => x
  | x :: y :: rest => x ++ sep ++ joinWith sep (y :: rest)

/-- Modelled from the spec (claim C5 reading of the Note decoration):
every occurrence of the `"Note:"` marker is replaced by its bold form and
the rest of the line is unchanged, expressed as splitting the line at the
marker occurrences and rejoining the pieces with the bold form. -/
def specNote (s : List Char) : List Char :=
  joinWith noteBold (splitOnSubF noteTag s.length s)

/-- Model of `strings.Contains(s, pat)`. -/
def containsSub (pat : List Char) : List Char → Bool
  | [] => hasPref pat []
  | c :: rest => hasPref pat (c :: rest) || containsSub pat rest

/-- Model of the field-collecting loop of `parseDirective` (lines
105-134 of `main.go`): scan the doc-comment lines, skipping echo lines
and blank lines, breaking at a `---` prefixed line, and otherwise
cutting at `": "` and dispatching on the key as the Go code does.  The
result is the updated record together with the lines remaining for body
mode, or the fatal error message. -/
def parseFields (d : Directive) (previousKey : List Char) :
    List (List Char) → Except (List Char) (Directive × List (List Char))
  | [] => .ok (d, [])
  | line :: rest =>
    if hasPref kwDirective line then parseFields d previousKey rest
    else if isBlank line then parseFields d previousKey rest
    else if hasPref dashMark line then .ok (d, rest)
    else
      let kv : List Char × List Char :=
        match cut sepColonSpace line with
        | some p => p
        | none => (previousKey, ' ' :: line)
      match fieldAppend kv.1 with
      | some f => parseFields (f d kv.2) kv.1 rest
      | none =>
        if previousKey = [] then .error (unknownFieldMsg kv.1)
        else
          match fieldAppend previousKey with
          | some f => parseFields (f d kv.2) previousKey rest
          | none => .error panicNilAppender

/-- Model of the body loop of `parseDirective` (lines 136-138): every
remaining line is decorated and appended to `Content` followed by a
newline. -/
def parseBody (d : Directive) : List (List Char) → Directive
  | [] => d
  | line :: rest =>
    parseBody { d with Content := d.Content ++ decorateNote line ++ newlineCh } rest

/-- The record built at lines 94-97 of `main.go`: `Name` and
`LastModification` are set at creation, every other field starts as the
empty Go string. -/
def initDirective (now name : List Char) : Directive :=
  { Name := name, Description := [], synt := [], Default := [], Date := [],
    LastModification := now, Content := [] }

/-- Model of `parseDirective`: the two scanning loops over the doc
comment, with the current time passed explicitly as `now`. -/
def parseDirective (now name doc : List Char) : Except (List Char) Directive :=
  match parseFields (initDirective now name) [] (splitLines doc) with
  | .error e => .error e
  | .ok p => .ok (parseBody p.1 p.2)

/-- A top-level function declaration of the scanned source file: its
identifier and its attached doc-comment text; `none` models a nil
`fn.Doc`, and `some` a present comment group, whose text may still be
empty. -/
structure FuncDecl where
  name : List Char
  doc : Option (List Char)

/-- Model of `os.Create`: truncate the file if present, create it empty
otherwise. -/
def createFile (fs : List (List Char × List Char)) (path : List Char) :
    List (List Char × List Char) :=
  fs.filter (fun e => decide (e.1 ≠ path)) ++ [(path, [])]

/-- Model of `f.WriteString` on a freshly created file: set the contents
of `path`. -/
def writeFile (fs : List (List Char × List Char)) (path content : List Char) :
    List (List Char × List Char) :=
  fs.map (fun e => if e.1 = path then (path, content) else e)

/-- Model of the `ast.Inspect` loop of `main` (lines 54-90): process the
function declarations in source order; skip names without the
`directive` prefix and declarations without an attached doc comment;
otherwise create the output file, parse the doc comment, and on success
render and write.  On a fatal parse error the run stops with the file
system as it stands.  `render` models template execution followed by
`html.UnescapeString`. -/
def runDecls (render : Directive → List Char) (now : List Char) :
    List FuncDecl → List (List Char × List Char) →
    List (List Char × List Char) × Option (List Char)
  | [], fs => (fs, none)
  | decl :: rest, fs =>
    if hasPref kwDirective decl.name then
      match decl.doc with
      | none => runDecls render now rest fs
      | some doc =>
        let dname := List.drop 9 decl.name
        let path := dname ++ mdExt
        let fs1 := createFile fs path
        match parseDirective now dname doc with
        | .error e => (fs1, some e)
        | .ok d => runDecls render now rest (writeFile fs1 path (render d))
    else runDecls render now rest fs

/-- Modelled from the spec (claim C4 attribution rule): the values
attributed to fields while scanning, in source order.  A line with the
separator attributes its value to its key and makes the key current; a
continuation line attributes itself, prefixed by one space, to the
current key.  The cursor `[]` means that no key is current yet. -/
def specAttrib (cur : List Char) : List (List Char) → List (List Char × List Char)
  | [] => []
  | line :: rest =>
    if hasPref kwDirective line then specAttrib cur rest
    else if isBlank line then specAttrib cur rest
    else
      match cut sepColonSpace line with
      | some p => p :: specAttrib p.1 rest
      | none =>
        if cur = [] then [] else (cur, ' ' :: line) :: specAttrib cur rest

/-- Apply one attributed pair to the record through the appender map. -/
def applyPair (d : Directive) (p : List Char × List Char) : Directive :=
  match fieldAppend p.1 with
  | some f => f d p.2
  | none => d

/-- Modelled from the spec (claim C4): the text of one field is the
concatenation, in source order, of all values attributed to it. -/
def specFieldText (key : List Char) (doc : List Char) : List Char :=
  (((specAttrib [] (splitLines doc)).filter (fun p => decide (p.1 = key))).map
    Prod.snd).flatten

/-- Well-formedness of a doc comment for claim C4: every line is an echo
line, a blank line, a recognized field line, or a continuation line that
has a current field; lines opening body mode are outside this class. -/
def wfFieldLines (haveKey : Bool) : List (List Char) → Bool
  | [] => true
  | line :: rest =>
    if hasPref kwDirective line then wfFieldLines haveKey rest
    else if isBlank line then wfFieldLines haveKey rest
    else if hasPref dashMark line then false
    else
      match cut sepColonSpace line with
      | some p => recognizedKey p.1 && wfFieldLines true rest
      | none => haveKey && wfFieldLines haveKey rest

/-- A recognized key is one of the three field keys. -/
theorem recognizedKey_cases (k : List Char) (h : recognizedKey k = true) :
    k = keyDescription ∨ k = keySyn ∨ k = keyDefault := by
  by_cases h1 : k = keyDescription
  · exact Or.inl h1
  · by_cases h2 : k = keySyn
    · exact Or.inr (Or.inl h2)
    · by_cases h3 : k = keyDefault
      · exact Or.inr (Or.inr h3)
      · unfold recognizedKey fieldAppend at h
        simp [h1, h2, h3] at h

/-- A recognized key is a non-empty string. -/
theorem recognizedKey_ne_nil (k : List Char) (h : recognizedKey k = true) : k ≠ [] := by
  rcases recognizedKey_cases k h with h | h | h <;> subst h <;> decide

/-- A recognized key has an appender. -/
theorem fieldAppend_isSome (k : List Char) (h : recognizedKey k = true) :
    ∃ f, fieldAppend k = some f := by
  unfold recognizedKey at h
  cases ho : fieldAppend k with
  | none => rw [ho] at h; simp at h
  | some f => exact ⟨f, rfl⟩

/-- Appenders commute with overwriting the timestamp field. -/
theorem fieldAppend_setLM (k : List Char) (f : Directive → List Char → Directive)
    (h : fieldAppend k = some f) (d : Directive) (v x : List Char) :
    f { d with LastModification := x } v = { f d v with LastModification := x } := by
  unfold fieldAppend at h
  split at h
  · cases h; rfl
  · split at h
    · cases h; rfl
    · split at h
      · cases h; rfl
      · exact Option.noConfusion h

/-- Appenders never touch the name or the date. -/
theorem fieldAppend_frame (k : List Char) (f : Directive → List Char → Directive)
    (h : fieldAppend k = some f) (d : Directive) (v : List Char) :
    (f d v).Name = d.Name ∧ (f d v).Date = d.Date := by
  unfold fieldAppend at h
  split at h
  · cases h; exact ⟨rfl, rfl⟩
  · split at h
    · cases h; exact ⟨rfl, rfl⟩
    · split at h
      · cases h; exact ⟨rfl, rfl⟩
      · exact Option.noConfusion h

/-- The body loop only appends to `Content`: every other field of the
record is preserved. -/
theorem parseBody_frame (lines : List (List Char)) : ∀ d : Directive,
    (parseBody d lines).Name = d.Name ∧ (parseBody d lines).Description = d.Description
      ∧ (parseBody d lines).synt = d.synt ∧ (parseBody d lines).Default = d.Default
      ∧ (parseBody d lines).Date = d.Date
      ∧ (parseBody d lines).LastModification = d.LastModification := by
  induction lines with
  | nil => intro d; exact ⟨rfl, rfl, rfl, rfl, rfl, rfl⟩
  | cons l rest ih =>
    intro d
    simpa [parseBody] using
      ih { d with Content := d.Content ++ decorateNote l ++ newlineCh }

/-- The body loop appends each decorated line followed by a newline. -/
theorem parseBody_content (lines : List (List Char)) : ∀ d : Directive,
    (parseBody d lines).Content
      = d.Content ++ (lines.map (fun l => decorateNote l ++ newlineCh)).flatten := by
  induction lines with
  | nil => intro d; simp [parseBody]
  | cons l rest ih =>
    intro d
    simp [parseBody, ih, List.append_assoc]

/-- The body loop commutes with overwriting the timestamp field. -/
theorem parseBody_setLM (lines : List (List Char)) : ∀ (d : Directive) (x : List Char),
    parseBody { d with LastModification := x } lines
      = { parseBody d lines with LastModification := x } := by
  induction lines with
  | nil => intro d x; rfl
  | cons l rest ih =>
    intro d x
    show parseBody
        { { d with Content := d.Content ++ decorateNote l ++ newlineCh } with
            LastModification := x } rest = _
    rw [ih]
    rfl

/-- A doc comment made only of echo lines and blank lines is skipped
whole by the field loop, leaving the record unchanged and no body. -/
theorem parseFields_skipAll (lines : List (List Char)) : ∀ (d : Directive) (pk : List Char),
    lines.all (fun l => hasPref kwDirective l || isBlank l) = true →
    parseFields d pk lines = .ok (d, []) := by
  induction lines with
  | nil => intro d pk _; rfl
  | cons l rest ih =>
    intro d pk h
    simp only [List.all_cons, Bool.and_eq_true, Bool.or_eq_true] at h
    obtain ⟨h1, h2⟩ := h
    simp only [parseFields]
    rcases h1 with h1 | h1
    · rw [if_pos h1]
      exact ih d pk h2
    · by_cases h0 : hasPref kwDirective l = true
      · rw [if_pos h0]
        exact ih d pk h2
      · rw [if_neg h0, if_pos h1]
        exact ih d pk h2

/-- The field loop never changes the name or the date of the record. -/
theorem parseFields_frame (lines : List (List Char)) : ∀ (d : Directive) (pk : List Char)
    (d' : Directive) (r : List (List Char)),
    parseFields d pk lines = .ok (d', r) → d'.Name = d.Name ∧ d'.Date = d.Date := by
  induction lines with
  | nil =>
    intro d pk d' r h
    simp only [parseFields, Except.ok.injEq, Prod.mk.injEq] at h
    rw [← h.1]
    exact ⟨rfl, rfl⟩
  | cons line rest ih =>
    intro d pk d' r h
    simp only [parseFields] at h
    by_cases h1 : hasPref kwDirective line = true
    · rw [if_pos h1] at h
      exact ih d pk d' r h
    · rw [if_neg h1] at h
      by_cases h2 : isBlank line = true
      · rw [if_pos h2] at h
        exact ih d pk d' r h
      · rw [if_neg h2] at h
        by_cases h3 : hasPref dashMark line = true
        · rw [if_pos h3] at h
          simp only [Except.ok.injEq, Prod.mk.injEq] at h
          rw [← h.1]
          exact ⟨rfl, rfl⟩
        · rw [if_neg h3] at h
          cases hc : cut sepColonSpace line with
          | some p =>
            simp only [hc] at h
            cases hf : fieldAppend p.1 with
            | some f =>
              simp only [hf] at h
              have ha := ih (f d p.2) p.1 d' r h
              have hb := fieldAppend_frame p.1 f hf d p.2
              exact ⟨ha.1.trans hb.1, ha.2.trans hb.2⟩
            | none =>
              simp only [hf] at h
              by_cases hpk : pk = []
              · rw [if_pos hpk] at h
                exact Except.noConfusion h
              · rw [if_neg hpk] at h
                cases hg : fieldAppend pk with
                | some g =>
                  simp only [hg] at h
                  have ha := ih (g d p.2) pk d' r h
                  have hb := fieldAppend_frame pk g hg d p.2
                  exact ⟨ha.1.trans hb.1, ha.2.trans hb.2⟩
                | none =>
                  simp only [hg] at h
                  exact Except.noConfusion h
          | none =>
            simp only [hc] at h
            cases hf : fieldAppend pk with
            | some f =>
              simp only [hf] at h
              have ha := ih (f d (' ' :: line)) pk d' r h
              have hb := fieldAppend_frame pk f hf d (' ' :: line)
              exact ⟨ha.1.trans hb.1, ha.2.trans hb.2⟩
            | none =>
              simp only [hf] at h
              by_cases hpk : pk = []
              · rw [if_pos hpk] at h
                exact Except.noConfusion h
              · rw [if_neg hpk] at h
                exact Except.noConfusion h

/-- The field loop commutes with overwriting the timestamp field: no
branch reads it and no appender writes it. -/
theorem parseFields_setLM (lines : List (List Char)) : ∀ (d : Directive) (pk x : List Char),
    parseFields { d with LastModification := x } pk lines
      = Except.map (fun p : Directive × List (List Char) =>
          ({ p.1 with LastModification := x }, p.2)) (parseFields d pk lines) := by
  induction lines with
  | nil => intro d pk x; rfl
  | cons line rest ih =>
    intro d pk x
    simp only [parseFields]
    by_cases h1 : hasPref kwDirective line = true
    · rw [if_pos h1, if_pos h1]
      exact ih d pk x
    · rw [if_neg h1, if_neg h1]
      by_cases h2 : isBlank line = true
      · rw [if_pos h2, if_pos h2]
        exact ih d pk x
      · rw [if_neg h2, if_neg h2]
        by_cases h3 : hasPref dashMark line = true
        · rw [if_pos h3, if_pos h3]
          rfl
        · rw [if_neg h3, if_neg h3]
          cases hc : cut sepColonSpace line with
          | some p =>
            simp only [hc]
            cases hf : fieldAppend p.1 with
            | some f =>
              simp only [hf]
              rw [fieldAppend_setLM p.1 f hf d p.2]
              exact ih (f d p.2) p.1 x
            | none =>
              simp only [hf]
              by_cases hpk : pk = []
              · rw [if_pos hpk, if_pos hpk]
                rfl
              · rw [if_neg hpk, if_neg hpk]
                cases hg : fieldAppend pk with
                | some g =>
                  simp only [hg]
                  rw [fieldAppend_setLM pk g hg d p.2]
                  exact ih (g d p.2) pk x
                | none =>
                  simp only [hg]
                  rfl
          | none =>
            simp only [hc]
            cases hf : fieldAppend pk with
            | some f =>
              simp only [hf]
              rw [fieldAppend_setLM pk f hf d (' ' :: line)]
              exact ih (f d (' ' :: line)) pk x
            | none =>
              simp only [hf]
              by_cases hpk : pk = []
              · rw [if_pos hpk]
                rfl
              · rw [if_neg hpk]
                rfl

/-- Splitting never produces an empty list of pieces. -/
theorem splitOnSubF_ne_nil (pat : List Char) : ∀ (fuel : Nat) (s : List Char),
    splitOnSubF pat fuel s ≠ [] := by
  intro fuel s
  match fuel, s with
  | 0, s => simp [splitOnSubF]
  | _ + 1, [] => simp [splitOnSubF]
  | fuel + 1, c :: rest =>
    simp only [splitOnSubF]
    split
    · simp
    · split <;> simp

/-- Joining after prepending a character to the first piece prepends the
character to the joined text. -/
theorem joinWith_cons_head (sep : List Char) (c : Char) (t : List Char)
    (ts : List (List Char)) :
    joinWith sep ((c :: t) :: ts) = c :: joinWith sep (t :: ts) := by
  cases ts with
  | nil => rfl
  | cons y ys => simp [joinWith, List.cons_append]

/-- Joining with an empty first piece starts with the separator. -/
theorem joinWith_nil_cons (sep : List Char) (l : List (List Char)) (h : l ≠ []) :
    joinWith sep ([] :: l) = sep ++ joinWith sep l := by
  cases l with
  | nil => exact absurd rfl h
  | cons y ys => simp [joinWith]

/-- Replacing all occurrences equals splitting at the occurrences and
rejoining with the replacement: the text around the occurrences is kept
unchanged. -/
theorem replaceAllF_eq_joinWith (pat rep : List Char) : ∀ (fuel : Nat) (s : List Char),
    replaceAllF pat rep fuel s = joinWith rep (splitOnSubF pat fuel s) := by
  intro fuel
  induction fuel with
  | zero => intro s; rfl
  | succ n ih =>
    intro s
    cases s with
    | nil => rfl
    | cons c rest =>
      simp only [replaceAllF, splitOnSubF]
      split
      · rw [joinWith_nil_cons _ _ (splitOnSubF_ne_nil pat n _), ih]
      · cases hs : splitOnSubF pat n rest with
        | nil => exact absurd hs (splitOnSubF_ne_nil pat n rest)
        | cons t ts => simp only [hs, joinWith_cons_head, ih rest, hs]

/-- The decoration pass calls the spec-side description. -/
theorem decorateNote_eq_specNote (s : List Char) : decorateNote s = specNote s :=
  replaceAllF_eq_joinWith noteTag noteBold s.length s

/-- A line without the marker is left unchanged by the replacement. -/
theorem replaceAllF_of_not_contains (pat rep : List Char) :
    ∀ (fuel : Nat) (s : List Char), containsSub pat s = false →
      replaceAllF pat rep fuel s = s := by
  intro fuel
  induction fuel with
  | zero => intro s _; rfl
  | succ n ih =>
    intro s h
    cases s with
    | nil => rfl
    | cons c rest =>
      have h1 : hasPref pat (c :: rest) = false ∧ containsSub pat rest = false := by
        simpa [containsSub] using h
      simp [replaceAllF, h1.1, ih rest h1.2]

/-- Applying one attributed pair appends the value to exactly the field
named by the key and leaves the other two fields unchanged. -/
theorem applyPair_proj (d : Directive) (k v : List Char) :
    ((applyPair d (k, v)).Description
        = d.Description ++ (if k = keyDescription then v else []))
    ∧ ((applyPair d (k, v)).synt = d.synt ++ (if k = keySyn then v else []))
    ∧ ((applyPair d (k, v)).Default
        = d.Default ++ (if k = keyDefault then v else [])) := by
  by_cases e1 : k = keyDescription
  · subst e1
    have e2 : keyDescription ≠ keySyn := by decide
    have e3 : keyDescription ≠ keyDefault := by decide
    simp [applyPair, fieldAppend, e2, e3]
  · by_cases e2 : k = keySyn
    · subst e2
      have e1b : keySyn ≠ keyDescription := by decide
      have e3 : keySyn ≠ keyDefault := by decide
      simp [applyPair, fieldAppend, e1b, e3]
    · by_cases e3 : k = keyDefault
      · subst e3
        have e1b : keyDefault ≠ keyDescription := by decide
        have e2b : keyDefault ≠ keySyn := by decide
        simp [applyPair, fieldAppend, e1b, e2b]
      · simp [applyPair, fieldAppend, e1, e2, e3]

/-- Folding a list of attributed pairs fills each field with the
concatenation, in order, of the values attributed to its key. -/
theorem foldl_applyPair_proj (pairs : List (List Char × List Char)) : ∀ d : Directive,
    ((pairs.foldl applyPair d).Description
        = d.Description
          ++ ((pairs.filter (fun p => decide (p.1 = keyDescription))).map Prod.snd).flatten)
    ∧ ((pairs.foldl applyPair d).synt
        = d.synt
          ++ ((pairs.filter (fun p => decide (p.1 = keySyn))).map Prod.snd).flatten)
    ∧ ((pairs.foldl applyPair d).Default
        = d.Default
          ++ ((pairs.filter (fun p => decide (p.1 = keyDefault))).map Prod.snd).flatten) := by
  induction pairs with
  | nil => intro d; simp
  | cons p ps ih =>
    intro d
    obtain ⟨k, v⟩ := p
    obtain ⟨a1, a2, a3⟩ := applyPair_proj d k v
    obtain ⟨i1, i2, i3⟩ := ih (applyPair d (k, v))
    rw [List.foldl_cons]
    refine ⟨?_, ?_, ?_⟩
    · rw [i1, a1]
      by_cases e : k = keyDescription
      · simp [List.filter_cons, e, List.append_assoc]
      · simp [List.filter_cons, e]
    · rw [i2, a2]
      by_cases e : k = keySyn
      · simp [List.filter_cons, e, List.append_assoc]
      · simp [List.filter_cons, e]
    · rw [i3, a3]
      by_cases e : k = keyDefault
      · simp [List.filter_cons, e, List.append_assoc]
      · simp [List.filter_cons, e]

/-- On a well-formed field block the field loop succeeds with no body
lines and computes exactly the fold of the spec-side attribution. -/
theorem parseFields_wf (lines : List (List Char)) : ∀ (d : Directive) (pk : List Char),
    (pk = [] ∨ recognizedKey pk = true) →
    wfFieldLines (!pk.isEmpty) lines = true →
    parseFields d pk lines = .ok ((specAttrib pk lines).foldl applyPair d, []) := by
  induction lines with
  | nil => intro d pk _ _; rfl
  | cons line rest ih =>
    intro d pk hpk hwf
    simp only [wfFieldLines] at hwf
    simp only [parseFields, specAttrib]
    by_cases h1 : hasPref kwDirective line = true
    · rw [if_pos h1] at hwf
      rw [if_pos h1, if_pos h1]
      exact ih d pk hpk hwf
    · rw [if_neg h1] at hwf
      rw [if_neg h1, if_neg h1]
      by_cases h2 : isBlank line = true
      · rw [if_pos h2] at hwf
        rw [if_pos h2, if_pos h2]
        exact ih d pk hpk hwf
      · rw [if_neg h2] at hwf
        rw [if_neg h2, if_neg h2]
        by_cases h3 : hasPref dashMark line = true
        · rw [if_pos h3] at hwf
          exact Bool.noConfusion hwf
        · rw [if_neg h3] at hwf
          rw [if_neg h3]
          cases hc : cut sepColonSpace line with
          | some p =>
            simp only [hc] at hwf ⊢
            rw [Bool.and_eq_true] at hwf
            obtain ⟨hr, hw⟩ := hwf
            obtain ⟨f, hf⟩ := fieldAppend_isSome p.1 hr
            have hne := recognizedKey_ne_nil p.1 hr
            have hie : p.1.isEmpty = false := by
              cases hq : p.1 with
              | nil => exact absurd hq hne
              | cons a as => rfl
            simp only [hf]
            rw [List.foldl_cons]
            have hap : applyPair d p = f d p.2 := by
              rw [show p = (p.1, p.2) from rfl]
              simp [applyPair, hf]
            rw [hap]
            have hwr : wfFieldLines (!p.1.isEmpty) rest = true := by
              rw [hie]
              exact hw
            exact ih (f d p.2) p.1 (Or.inr hr) hwr
          | none =>
            simp only [hc] at hwf ⊢
            rw [Bool.and_eq_true] at hwf
            obtain ⟨hk, hw⟩ := hwf
            have hne : pk ≠ [] := by
              intro hcon
              rw [hcon] at hk
              exact Bool.noConfusion hk
            have hr : recognizedKey pk = true := by
              rcases hpk with hpk | hpk
              · exact absurd hpk hne
              · exact hpk
            obtain ⟨f, hf⟩ := fieldAppend_isSome pk hr
            simp only [hf]
            rw [if_neg hne, List.foldl_cons]
            have hap : applyPair d (pk, ' ' :: line) = f d (' ' :: line) := by
              simp [applyPair, hf]
            rw [hap]
            exact ih (f d (' ' :: line)) pk (Or.inr hr) hw

/-- Claim C1, counterexample: on the doc comment
`"Description: a\nBogus: x\n"` the unknown key `Bogus` does not abort
processing although a current field is established; the value `x` is
silently appended to the current field, giving `Description = "ax"`, and
`parseDirective` succeeds, contradicting `aborts fatally regardless of
whether a current field has already been established`. -/
theorem claim_C1_cex :
    parseDirective [] "Foo".toList ("Description: a\nBogus: x\n").toList
      = .ok { Name := "Foo".toList, Description := "ax".toList, synt := [], Default := [],
              Date := [], LastModification := [], Content := [] } := rfl

/-- Claim C1, amended: a field-mode line containing the separator with
an unrecognized key aborts fatally with an error naming the key only
when no current field is established; when the current field is a
recognized key the value after the separator is appended to that field
and processing continues. -/
theorem claim_C1_amended (d : Directive) (pk line : List Char)
    (rest : List (List Char)) (key value : List Char)
    (h1 : hasPref kwDirective line = false) (h2 : isBlank line = false)
    (h3 : hasPref dashMark line = false)
    (h4 : cut sepColonSpace line = some (key, value))
    (h5 : recognizedKey key = false) :
    (pk = [] → parseFields d pk (line :: rest) = .error (unknownFieldMsg key))
    ∧ (recognizedKey pk = true →
        parseFields d pk (line :: rest)
          = parseFields (applyPair d (pk, value)) pk rest) := by
  have hfk : fieldAppend key = none := by
    cases ho : fieldAppend key with
    | none => rfl
    | some f =>
      unfold recognizedKey at h5
      rw [ho] at h5
      simp at h5
  constructor
  · intro hpk
    simp [parseFields, h1, h2, h3, h4, hfk, hpk]
  · intro hrec
    obtain ⟨f, hf⟩ := fieldAppend_isSome pk hrec
    have hne : pk ≠ [] := recognizedKey_ne_nil pk hrec
    simp [parseFields, h1, h2, h3, h4, hfk, hf, hne, applyPair]

/-- Claim C1 amended, witness at the line `"Bogus: x"` with current
field `Description`. -/
theorem claim_C1_amended_witness :
    (keyDescription = ([] : List Char) →
      parseFields (initDirective [] []) keyDescription ["Bogus: x".toList]
        = .error (unknownFieldMsg "Bogus".toList))
    ∧ (recognizedKey keyDescription = true →
      parseFields (initDirective [] []) keyDescription ["Bogus: x".toList]
        = parseFields (applyPair (initDirective [] []) (keyDescription, "x".toList))
            keyDescription []) :=
  claim_C1_amended (initDirective [] []) keyDescription ("Bogus: x".toList) []
    ("Bogus".toList) ("x".toList) (by decide) (by decide) (by decide) (by decide)
    (by decide)

/-- Claim C2, counterexample: a run on the single declaration
`directiveFoo` whose doc comment holds the unknown key `Bogus` aborts
with the unknown-field error, yet the file `Foo.md` has already been
created (empty): the on-disk state is not unchanged and the number of
files written for the failing declaration is one, not zero. -/
theorem claim_C2_cex :
    runDecls (fun _ => []) [] [⟨"directiveFoo".toList, some ("Bogus: x\n").toList⟩] []
      = ([("Foo.md".toList, [])], some (unknownFieldMsg "Bogus".toList)) := rfl

/-- Claim C2, amended: when parsing the doc comment of an accepted
declaration fails, the run stops with exactly the failing declaration's
file created and truncated to empty contents: no rendered content is
written to it and no subsequent declaration produces any file. -/
theorem claim_C2_amended (render : Directive → List Char) (now name doc e : List Char)
    (rest : List FuncDecl) (fs : List (List Char × List Char))
    (h1 : hasPref kwDirective name = true)
    (h2 : parseDirective now (List.drop 9 name) doc = .error e) :
    runDecls render now (⟨name, some doc⟩ :: rest) fs
      = (createFile fs (List.drop 9 name ++ mdExt), some e) := by
  simp [runDecls, h1, h2]

/-- Claim C2 amended, witness: the failing `directiveFoo` declaration
followed by a further declaration that is never processed. -/
theorem claim_C2_amended_witness :
    runDecls (fun _ => []) []
        [⟨"directiveFoo".toList, some ("Bogus: x\n").toList⟩,
         ⟨"directiveBar".toList, some []⟩] []
      = (createFile [] (List.drop 9 ("directiveFoo".toList) ++ mdExt),
         some (unknownFieldMsg "Bogus".toList)) :=
  claim_C2_amended (fun _ => []) [] ("directiveFoo".toList) (("Bogus: x\n").toList)
    (unknownFieldMsg "Bogus".toList) [⟨"directiveBar".toList, some []⟩] []
    (by decide) rfl

/-- Claim C3, counterexample: the line `"---x"` carries trailing
characters after the dashes, yet it transitions to body mode and is
discarded: the following line becomes decorated body content and no
fatal error occurs, contradicting the solely-dashes reading under which
`"---x"` would be a continuation line without a current field and hence
a fatal error. -/
theorem claim_C3_cex :
    parseDirective [] "Foo".toList ("---x\nNote: a\n").toList
      = .ok { Name := "Foo".toList, Description := [], synt := [], Default := [], Date := [],
              LastModification := [], Content := ("**Note:** a\n").toList } := rfl

/-- Claim C3, amended: in field-collecting mode any line beginning with
`---`, regardless of what follows the dashes, transitions to body mode;
the line itself is discarded and the remaining lines become the body. -/
theorem claim_C3_amended (d : Directive) (pk line : List Char) (rest : List (List Char))
    (h1 : hasPref kwDirective line = false) (h2 : isBlank line = false)
    (h3 : hasPref dashMark line = true) :
    parseFields d pk (line :: rest) = .ok (d, rest) := by
  simp [parseFields, h1, h2, h3]

/-- Claim C3 amended, witness at the line `"---x"`. -/
theorem claim_C3_amended_witness :
    parseFields (initDirective [] []) [] ["---x".toList, "body".toList]
      = .ok (initDirective [] [], ["body".toList]) :=
  claim_C3_amended (initDirective [] []) [] ("---x".toList) ["body".toList]
    (by decide) (by decide) (by decide)

/-- Claim C4: for a doc comment made only of recognized field lines,
blank lines, echo lines and continuation lines (each continuation line
having a current field), parsing succeeds and each of the three fields
equals the concatenation, in source order, of the values attributed to
it, continuation lines being prefixed by one space. -/
theorem claim_C4 (now name doc : List Char)
    (hwf : wfFieldLines false (splitLines doc) = true) :
    ∃ d, parseDirective now name doc = .ok d
      ∧ d.Description = specFieldText keyDescription doc
      ∧ d.synt = specFieldText keySyn doc
      ∧ d.Default = specFieldText keyDefault doc := by
  have h := parseFields_wf (splitLines doc) (initDirective now name) [] (Or.inl rfl) hwf
  refine ⟨(specAttrib [] (splitLines doc)).foldl applyPair (initDirective now name),
    ?_, ?_, ?_, ?_⟩
  · unfold parseDirective
    rw [h]
    rfl
  · simpa [specFieldText, initDirective] using
      (foldl_applyPair_proj (specAttrib [] (splitLines doc)) (initDirective now name)).1
  · simpa [specFieldText, initDirective] using
      (foldl_applyPair_proj (specAttrib [] (splitLines doc)) (initDirective now name)).2.1
  · simpa [specFieldText, initDirective] using
      (foldl_applyPair_proj (specAttrib [] (splitLines doc)) (initDirective now name)).2.2

/-- Claim C4, witness on a comment with an echo line, a continuation
line and a blank line. -/
theorem claim_C4_witness :
    ∃ d, parseDirective "T".toList "Foo".toList
        ("directiveFoo\nDescription: does.\nmore\nSyntax: S\n\nDefault: d\n").toList = .ok d
      ∧ d.Description
          = specFieldText keyDescription
              ("directiveFoo\nDescription: does.\nmore\nSyntax: S\n\nDefault: d\n").toList
      ∧ d.synt
          = specFieldText keySyn
              ("directiveFoo\nDescription: does.\nmore\nSyntax: S\n\nDefault: d\n").toList
      ∧ d.Default
          = specFieldText keyDefault
              ("directiveFoo\nDescription: does.\nmore\nSyntax: S\n\nDefault: d\n").toList :=
  claim_C4 "T".toList "Foo".toList
    ("directiveFoo\nDescription: does.\nmore\nSyntax: S\n\nDefault: d\n").toList (by decide)

/-- Claim C5: every body line is appended to the content after replacing
every occurrence of the `Note:` marker by its bold form, keeping the
rest of the line unchanged (spec-side split-and-rejoin description), a
line without the marker being appended unchanged, and each body line is
followed by a restored newline. -/
theorem claim_C5 :
    (∀ (d : Directive) (lines : List (List Char)),
      (parseBody d lines).Content
        = d.Content ++ (lines.map (fun l => specNote l ++ newlineCh)).flatten)
    ∧ (∀ l : List Char, containsSub noteTag l = false → decorateNote l = l) := by
  constructor
  · intro d lines
    rw [parseBody_content lines d]
    simp only [decorateNote_eq_specNote]
  · intro l h
    exact replaceAllF_of_not_contains noteTag noteBold l.length l h

/-- Claim C5, witness: a line without the marker passes through the
decoration unchanged. -/
theorem claim_C5_witness :
    decorateNote ("use with care.").toList = ("use with care.").toList :=
  claim_C5.2 (("use with care.").toList) (by decide)

/-- Claim C6: a single-declaration run produces an output file exactly
when the declaration name begins with `directive` and a doc comment is
attached (in the syntax tree an attached comment group is never empty,
so attachment is the non-empty-comment test of the spec; its text may
still be the empty string); a declaration failing the test is skipped
with no output and no error. -/
theorem claim_C6 (render : Directive → List Char) (now : List Char) (decl : FuncDecl) :
    ((runDecls render now [decl] []).1 ≠ []
        ↔ (hasPref kwDirective decl.name = true ∧ decl.doc ≠ none))
    ∧ (¬ (hasPref kwDirective decl.name = true ∧ decl.doc ≠ none) →
        runDecls render now [decl] [] = ([], none)) := by
  obtain ⟨nm, doc⟩ := decl
  by_cases h1 : hasPref kwDirective nm = true
  · cases doc with
    | none => simp [runDecls, h1]
    | some t =>
      have hne : (runDecls render now [⟨nm, some t⟩] []).1 ≠ [] := by
        cases hp : parseDirective now (List.drop 9 nm) t with
        | error e => simp [runDecls, h1, hp, createFile]
        | ok d => simp [runDecls, h1, hp, createFile, writeFile]
      exact ⟨⟨fun _ => ⟨h1, by simp⟩, fun _ => hne⟩,
        fun hcon => absurd ⟨h1, by simp⟩ hcon⟩
  · simp [runDecls, h1]

/-- Claim C6, witness: a declaration without the prefix is skipped with
no output and no error. -/
theorem claim_C6_witness :
    runDecls (fun _ => []) [] [⟨"main".toList, none⟩] [] = ([], none) :=
  (claim_C6 (fun _ => []) [] ⟨"main".toList, none⟩).2 (by decide)

/-- Claim C7, counterexample: the declaration named exactly `directive`
is accepted (its file `.md` is created) and its record name, the
declaration name with the nine-character prefix removed, is the empty
string, contradicting non-emptiness in precisely the case the claim
includes. -/
theorem claim_C7_cex :
    parseDirective [] (List.drop 9 kwDirective) [] = .ok (initDirective [] [])
    ∧ (initDirective [] []).Name = []
    ∧ (runDecls (fun d => d.Name) [] [⟨kwDirective, some []⟩] []).1 = [(mdExt, [])] :=
  ⟨rfl, rfl, rfl⟩

/-- Claim C7, amended: the record name of an accepted declaration is
non-empty whenever the declaration name is strictly longer than the
nine-character prefix; the declaration named exactly `directive` yields
an empty name. -/
theorem claim_C7_amended (now name doc : List Char) (d : Directive)
    (_h0 : hasPref kwDirective name = true) (h1 : 9 < name.length)
    (h2 : parseDirective now (List.drop 9 name) doc = .ok d) : d.Name ≠ [] := by
  unfold parseDirective at h2
  cases hb : parseFields (initDirective now (List.drop 9 name)) [] (splitLines doc) with
  | error e =>
    rw [hb] at h2
    exact Except.noConfusion h2
  | ok p =>
    rw [hb] at h2
    have hd : d = parseBody p.1 p.2 := by
      have h2b : Except.ok (parseBody p.1 p.2) = Except.ok d := h2
      cases h2b
      rfl
    rw [hd, (parseBody_frame p.2 p.1).1,
      (parseFields_frame (splitLines doc) (initDirective now (List.drop 9 name)) [] p.1
        p.2 hb).1]
    show List.drop 9 name ≠ []
    intro hcon
    have hlen := congrArg List.length hcon
    simp [List.length_drop] at hlen
    omega

/-- Claim C7 amended, witness at the declaration `directiveFoo`. -/
theorem claim_C7_amended_witness :
    (initDirective "T".toList "Foo".toList).Name ≠ [] :=
  claim_C7_amended "T".toList ("directiveFoo".toList) [] (initDirective "T".toList "Foo".toList)
    (by decide) (by decide) rfl

/-- Claim C8: two runs of `parseDirective` on the same name and doc
comment with different current times agree on every field except
`LastModification`. -/
theorem claim_C8 (now1 now2 name doc : List Char) (d1 d2 : Directive)
    (h1 : parseDirective now1 name doc = .ok d1)
    (h2 : parseDirective now2 name doc = .ok d2) :
    d1.Name = d2.Name ∧ d1.Description = d2.Description ∧ d1.synt = d2.synt
      ∧ d1.Default = d2.Default ∧ d1.Date = d2.Date ∧ d1.Content = d2.Content := by
  unfold parseDirective at h1 h2
  have e1 : (initDirective now1 name)
      = { initDirective now2 name with LastModification := now1 } := rfl
  rw [e1, parseFields_setLM] at h1
  cases hb : parseFields (initDirective now2 name) [] (splitLines doc) with
  | error e =>
    rw [hb] at h1
    exact Except.noConfusion h1
  | ok p =>
    rw [hb] at h1 h2
    have h1b : Except.ok (parseBody { p.1 with LastModification := now1 } p.2)
        = Except.ok d1 := h1
    have h2b : Except.ok (parseBody p.1 p.2) = Except.ok d2 := h2
    cases h1b
    cases h2b
    rw [parseBody_setLM p.2 p.1 now1]
    exact ⟨rfl, rfl, rfl, rfl, rfl, rfl⟩

/-- Claim C8, witness: two runs at times `A` and `B` on the same doc
comment agree on all fields but the timestamp. -/
theorem claim_C8_witness :
    ({ Name := "Foo".toList, Description := "x".toList, synt := [], Default := [],
       Date := [], LastModification := "A".toList, Content := [] } : Directive).Name
      = ({ Name := "Foo".toList, Description := "x".toList, synt := [], Default := [],
           Date := [], LastModification := "B".toList, Content := [] } : Directive).Name
    ∧ ({ Name := "Foo".toList, Description := "x".toList, synt := [], Default := [],
         Date := [], LastModification := "A".toList, Content := [] } : Directive).Description
      = ({ Name := "Foo".toList, Description := "x".toList, synt := [], Default := [],
           Date := [], LastModification := "B".toList, Content := [] } : Directive).Description
    ∧ ({ Name := "Foo".toList, Description := "x".toList, synt := [], Default := [],
         Date := [], LastModification := "A".toList, Content := [] } : Directive).synt
      = ({ Name := "Foo".toList, Description := "x".toList, synt := [], Default := [],
           Date := [], LastModification := "B".toList, Content := [] } : Directive).synt
    ∧ ({ Name := "Foo".toList, Description := "x".toList, synt := [], Default := [],
         Date := [], LastModification := "A".toList, Content := [] } : Directive).Default
      = ({ Name := "Foo".toList, Description := "x".toList, synt := [], Default := [],
           Date := [], LastModification := "B".toList, Content := [] } : Directive).Default
    ∧ ({ Name := "Foo".toList, Description := "x".toList, synt := [], Default := [],
         Date := [], LastModification := "A".toList, Content := [] } : Directive).Date
      = ({ Name := "Foo".toList, Description := "x".toList, synt := [], Default := [],
           Date := [], LastModification := "B".toList, Content := [] } : Directive).Date
    ∧ ({ Name := "Foo".toList, Description := "x".toList, synt := [], Default := [],
         Date := [], LastModification := "A".toList, Content := [] } : Directive).Content
      = ({ Name := "Foo".toList, Description := "x".toList, synt := [], Default := [],
           Date := [], LastModification := "B".toList, Content := [] } : Directive).Content :=
  claim_C8 "A".toList "B".toList "Foo".toList ("Description: x\n").toList _ _ rfl rfl

/-- Claim C9: a doc comment whose lines are all blank or echo lines (in
particular the empty comment) parses without error into a record with
empty description, grammar, default and content. -/
theorem claim_C9 (now name doc : List Char)
    (h : (splitLines doc).all (fun l => hasPref kwDirective l || isBlank l) = true) :
    parseDirective now name doc
      = .ok { Name := name, Description := [], synt := [], Default := [], Date := [],
              LastModification := now, Content := [] } := by
  unfold parseDirective
  rw [parseFields_skipAll (splitLines doc) (initDirective now name) [] h]
  rfl

/-- Claim C9, witness at the comment `"directiveBar\n   \n"`. -/
theorem claim_C9_witness :
    parseDirective "T".toList "Bar".toList ("directiveBar\n   \n").toList
      = .ok { Name := "Bar".toList, Description := [], synt := [], Default := [], Date := [],
              LastModification := "T".toList, Content := [] } :=
  claim_C9 "T".toList "Bar".toList (("directiveBar\n   \n").toList) (by decide)

/-- Claim C10: the `Date` field is declared but never assigned: every
record produced by `parseDirective` has an empty date. -/
theorem claim_C10 (now name doc : List Char) (d : Directive)
    (h : parseDirective now name doc = .ok d) : d.Date = [] := by
  unfold parseDirective at h
  cases hb : parseFields (initDirective now name) [] (splitLines doc) with
  | error e =>
    rw [hb] at h
    exact Except.noConfusion h
  | ok p =>
    rw [hb] at h
    have hd : d = parseBody p.1 p.2 := by
      have hb2 : Except.ok (parseBody p.1 p.2) = Except.ok d := h
      cases hb2
      rfl
    rw [hd, (parseBody_frame p.2 p.1).2.2.2.2.1,
      (parseFields_frame (splitLines doc) (initDirective now name) [] p.1 p.2 hb).2]
    rfl

/-- Claim C10, witness on a comment with a field line and a body. -/
theorem claim_C10_witness :
    ({ Name := "Foo".toList, Description := "x".toList, synt := [], Default := [],
       Date := [], LastModification := "T".toList,
       Content := ("b\n").toList } : Directive).Date = [] :=
  claim_C10 "T".toList "Foo".toList ("Description: x\n---\nb\n").toList _ rfl

end Directivesgen
